import Mathlib

/-!
Verification of the sweep-and-compress simulation engine of the
`componavt/differential_equations` repository (Hill-equation notebooks).

The development shallowly embeds the Python source:

* `Hill.dist`, `Hill.scanJ`, `Hill.loopI`, `Hill.compress_core`,
  `Hill.compress_trajectory` — the greedy trajectory compressor
  `compress_trajectory(t, x, y, delta)` of `98_DOP853.ipynb` (Cell 1).
  A trajectory is modelled by its length `n = len(t)` together with the
  coordinate arrays `x y : ℕ → ℝ`; the time array `t` enters the algorithm
  only through `len(t)`.
* `Hill.clip`, `Hill.powAlpha`, `Hill.get_rhs` — the hardened RHS evaluator
  `get_rhs(alpha, gamma1, gamma2)` of `98_DOP853.ipynb` (Cell 2), over ℝ.
* `Hill.dictSet`, `Hill.dictGet?`, `Hill.mergeRecords` — the record-merge
  loop of `95_save_for_streamlit_unique_x_y.ipynb` (Cell 3, delta variant),
  generic in the key/value/time-array types.
* `Hill.norm2`, `Hill.uniqueAgainst` — the uniqueness filter of
  `95_save_for_streamlit_unique_x_y.ipynb` (Cell 3, epsilon variant).
* `Hill.sweepStep`, `Hill.sweep` — the sweep driver of `98_DOP853.ipynb`
  (Cell 3) with the external ODE integrator as a black-box oracle.
* `Hill.scanJF`, `Hill.loopF`, `Hill.compressF` — a fuel-indexed variant of
  the compressor used to state termination of the two nested while loops.

Machine floating point is modelled by ℝ; the numerical-safety statements
record the exact clamping bounds together with the IEEE-754 double overflow
threshold 1.8e308.
-/

namespace Hill

/-- Source expression `dist = np.sqrt((x[j] - x[i])**2 + (y[j] - y[i])**2)`: Euclidean
distance between trajectory points `i` and `j` (`compress_trajectory`,
`98_DOP853.ipynb`). -/
noncomputable def dist (x y : ℕ → ℝ) (i j : ℕ) : ℝ :=
  Real.sqrt ((x j - x i) ^ 2 + (y j - y i) ^ 2)

open Classical in
/-- Inner `while j < len(t)` loop of `compress_trajectory`: starting from
candidate `j`, return the first index whose distance from point `i` exceeds
`delta`, or the first index `≥ n` if the tail is exhausted. -/
noncomputable def scanJ (n : ℕ) (x y : ℕ → ℝ) (delta : ℝ) (i j : ℕ) : ℕ :=
  if j < n then
    if delta < dist x y i j then j
    else scanJ n x y delta i (j + 1)
  else j
termination_by n - j

theorem scanJ_ge (n : ℕ) (x y : ℕ → ℝ) (delta : ℝ) (i j : ℕ) :
    j ≤ scanJ n x y delta i j := by
  unfold scanJ
  split
  · split
    · exact le_refl j
    · exact le_trans (Nat.le_succ j) (scanJ_ge n x y delta i (j + 1))
  · exact le_refl j
termination_by n - j

open Classical in
/-- Outer `while i < len(t) - 1` loop of `compress_trajectory`: the list of
indices appended after the initial `[0]`, starting from retained index `i`. -/
noncomputable def loopI (n : ℕ) (x y : ℕ → ℝ) (delta : ℝ) (i : ℕ) : List ℕ :=
  if i < n - 1 then
    let j := scanJ n x y delta i (i + 1)
    if n ≤ j then []
    else j :: loopI n x y delta j
  else []
termination_by n - i
decreasing_by
  have h1 : i + 1 ≤ j := scanJ_ge n x y delta i (i + 1)
  omega

/-- The index list built by the two while loops of `compress_trajectory`
(before the final unconditional append): `indices = [0]` then the appended
scan results. -/
noncomputable def compress_core (n : ℕ) (x y : ℕ → ℝ) (delta : ℝ) : List ℕ :=
  0 :: loopI n x y delta 0

/-- Source function `compress_trajectory(t, x, y, delta)` of `98_DOP853.ipynb`: the greedy
compression index list, with `len(t) - 1` appended when the scan did not end
there (`if indices[-1] != len(t) - 1: indices.append(len(t) - 1)`). -/
noncomputable def compress_trajectory (n : ℕ) (x y : ℕ → ℝ) (delta : ℝ) :
    List ℕ :=
  let c := compress_core n x y delta
  if c.getLastD 0 ≠ n - 1 then c ++ [n - 1] else c

/-! Fuel-indexed variant of the compressor (for the termination claim)

`scanJF`/`loopF` run the same two while loops but consume one unit of fuel
per loop iteration, returning `none` when the fuel is exhausted.  That the
well-founded versions above are total, and that a fuel of `n + 1` always
suffices, is the formal content of termination of `compress_trajectory`. -/

open Classical in
noncomputable def scanJF (n : ℕ) (x y : ℕ → ℝ) (delta : ℝ) :
    ℕ → ℕ → ℕ → Option ℕ
  | 0, _, _ => none
  | fuel + 1, i, j =>
    if j < n then
      if delta < dist x y i j then some j
      else scanJF n x y delta fuel i (j + 1)
    else some j

open Classical in
noncomputable def loopF (n : ℕ) (x y : ℕ → ℝ) (delta : ℝ) :
    ℕ → ℕ → Option (List ℕ)
  | 0, _ => none
  | fuel + 1, i =>
    if i < n - 1 then
      match scanJF n x y delta (n + 1) i (i + 1) with
      | none => none
      | some j =>
        if n ≤ j then some []
        else (loopF n x y delta fuel j).map (fun l => j :: l)
    else some []

noncomputable def compressF (n : ℕ) (x y : ℕ → ℝ) (delta : ℝ) (fuel : ℕ) :
    Option (List ℕ) :=
  (loopF n x y delta fuel 0).map (fun l =>
    let c := 0 :: l
    if c.getLastD 0 ≠ n - 1 then c ++ [n - 1] else c)

/-! RHS evaluator (`get_rhs`, Cell 2 of `98_DOP853.ipynb`) -/

/-- Fixed model parameter `b = 1.0`. -/
noncomputable def b : ℝ := 1.0

/-- Fixed model parameter `K = 1.0`. -/
noncomputable def K : ℝ := 1.0

/-- Source expression `np.clip(v, lo, hi)`. -/
noncomputable def clip (v lo hi : ℝ) : ℝ := max lo (min v hi)

/-- The hardened fractional power
`np.exp(np.clip(np.log(v) * inv_alpha, -700, 700))`. -/
noncomputable def powAlpha (v inv_alpha : ℝ) : ℝ :=
  Real.exp (clip (Real.log v * inv_alpha) (-700) 700)

/-- Source function `get_rhs(alpha, gamma1, gamma2)` of `98_DOP853.ipynb` Cell 2: the
returned closure `rhs(t, xy)`, time argument unused. -/
noncomputable def get_rhs (alpha gamma1 gamma2 : ℝ) : ℝ → ℝ × ℝ → ℝ × ℝ :=
  fun _t xy =>
    let x := clip xy.1 1e-20 1e20
    let y := clip xy.2 1e-20 1e20
    let inv_alpha := 1.0 / alpha
    let x_alpha := powAlpha x inv_alpha
    let y_alpha := powAlpha y inv_alpha
    let b_alpha := powAlpha b inv_alpha
    (K * x_alpha / (b_alpha + x_alpha) - gamma1 * x,
     K * y_alpha / (b_alpha + y_alpha) - gamma2 * y)

/-! Record merge (Cell 3 of `95_save_for_streamlit_unique_x_y.ipynb`,
delta variant, and Cell 3 of `96_from_picle_to_Pandas.ipynb`)

The merge loop is generic container code; it is embedded parametrically in
the key type `α` (instantiated by the five-tuple
`(x0, y0, gamma1, gamma2, alpha)` of floats in the source), the per-method
payload type `β` (the pair `(x_filt, y_filt)`) and the time-array type `τ`
(`t_filt`). -/

/-- One entry of the `records` list:
`{'x0': …, …, 'alpha': …, 't': t_filt, 'solutions': {method: (x, y)}}`,
with the five parameter fields bundled into `key`. -/
structure SolutionRecord (α β τ : Type) : Type where
  key : α
  t : τ
  solutions : List (String × β)

/-- Python dict update `d[method] = v`: overwrite in place if the key is
present, else append. -/
def dictSet {β : Type} (m : List (String × β)) (meth : String) (v : β) :
    List (String × β) :=
  match m with
  | [] => [(meth, v)]
  | (k, w) :: rest =>
    if k = meth then (meth, v) :: rest else (k, w) :: dictSet rest meth v

/-- Python dict lookup `d.get(method)`. -/
def dictGet? {β : Type} : List (String × β) → String → Option β
  | [], _ => none
  | (k, w) :: rest, meth => if k = meth then some w else dictGet? rest meth

/-- The merge step of Cell 3: scan `records` for the first record whose
five-tuple equals `key`; if found, set the method entry in its `solutions`
dict and stop; otherwise append a fresh record seeded with this method's
compressed time array. -/
def mergeRecords {α β τ : Type} [DecidableEq α]
    (records : List (SolutionRecord α β τ)) (key : α) (meth : String)
    (xy : β) (tf : τ) : List (SolutionRecord α β τ) :=
  match records with
  | [] => [⟨key, tf, [(meth, xy)]⟩]
  | r :: rs =>
    if r.key = key then { r with solutions := dictSet r.solutions meth xy } :: rs
    else r :: mergeRecords rs key meth xy tf

/-! Uniqueness filter (Cell 3 of `95_save_for_streamlit_unique_x_y.ipynb`,
epsilon variant) -/

/-- Source expression `np.linalg.norm(a - b)` for two equal-length 1-D arrays. -/
noncomputable def norm2 (a c : List ℝ) : ℝ :=
  Real.sqrt (List.sum (List.zipWith (fun u v => (u - v) ^ 2) a c))

open Classical in
/-- Flag `unique` computed by
`for sig in saved_signatures: if norm(x - sig['x']) < epsilon and
norm(y - sig['y']) < epsilon: unique = False; break`. -/
noncomputable def uniqueAgainst (epsilon : ℝ)
    (saved : List (List ℝ × List ℝ)) (x y : List ℝ) : Bool :=
  match saved with
  | [] => true
  | sig :: rest =>
    if norm2 x sig.1 < epsilon ∧ norm2 y sig.2 < epsilon then false
    else uniqueAgainst epsilon rest x y

/-! Sweep driver (Cell 3 of `98_DOP853.ipynb`)

One grid point is the five-tuple `(x0, y0, gamma1, gamma2, alpha)`.  The
external integrator `solve_ivp` is a black-box oracle
`solve : GridPoint → SolveResult`: it either raises an exception (`err`,
caught by the `try/except` and printed), returns with `success = False`
(`fail`, the `if sol.success:` guard is skipped), or succeeds with the
sampled arrays `sol.t`, `sol.y[0]`, `sol.y[1]` of length `len(t_eval)`. -/

def GridPoint : Type := ℝ × ℝ × ℝ × ℝ × ℝ

inductive SolveResult : Type where
  | err : String → SolveResult
  | fail : SolveResult
  | ok : (ℕ → ℝ) → (ℕ → ℝ) → (ℕ → ℝ) → ℕ → SolveResult

def SolveResult.isOk : SolveResult → Bool
  | .ok _ _ _ _ => true
  | _ => false

def SolveResult.isErr : SolveResult → Bool
  | .err _ => true
  | _ => false

/-- Mutable state threaded through the sweep loop: the `records`
accumulator, the three counters, and the printed error log. -/
structure SweepState : Type where
  records : List (SolutionRecord GridPoint (List ℝ × List ℝ) (List ℝ))
  solution_count : ℕ
  kept_total : ℕ
  skipped_total : ℕ
  errors : List String

/-- The record appended for one successful grid point in `98_DOP853.ipynb`
(single method `"DOP853"`): compressed arrays `t[indices]`, `x[indices]`,
`y[indices]`. -/
noncomputable def recordOf (delta : ℝ) (g : GridPoint)
    (t x y : ℕ → ℝ) (n : ℕ) :
    SolutionRecord GridPoint (List ℝ × List ℝ) (List ℝ) :=
  let indices := compress_trajectory n x y delta
  ⟨g, indices.map t, [("DOP853", (indices.map x, indices.map y))]⟩

/-- The body of the sweep loop for one grid point: `try: sol = solve_ivp(…);
if sol.success: … except Exception as e: print(error)`. -/
noncomputable def sweepStep (delta : ℝ) (solve : GridPoint → SolveResult)
    (st : SweepState) (g : GridPoint) : SweepState :=
  match solve g with
  | .err e => { st with errors := st.errors ++ [e] }
  | .fail => st
  | .ok t x y n =>
    let indices := compress_trajectory n x y delta
    { records := st.records ++ [recordOf delta g t x y n]
      solution_count := st.solution_count + 1
      kept_total := st.kept_total + indices.length
      skipped_total := st.skipped_total + (n - indices.length)
      errors := st.errors }

/-- The full sweep: fold the loop body over the enumerated grid. -/
noncomputable def sweep (delta : ℝ) (solve : GridPoint → SolveResult)
    (st : SweepState) (grid : List GridPoint) : SweepState :=
  List.foldl (sweepStep delta solve) st grid

/-- The error message printed for a failing grid point. -/
def errOf (solve : GridPoint → SolveResult) (g : GridPoint) : String :=
  match solve g with
  | .err e => e
  | _ => ""

/-- The record contributed by a successful grid point (dummy record for
non-successful ones; only used under an `isOk` filter). -/
noncomputable def recordAt (delta : ℝ) (solve : GridPoint → SolveResult)
    (g : GridPoint) : SolutionRecord GridPoint (List ℝ × List ℝ) (List ℝ) :=
  match solve g with
  | .ok t x y n => recordOf delta g t x y n
  | _ => ⟨g, [], []⟩

/-- The relation holding between two successive indices appended by the
scan loop: the later one is the first index past the earlier whose distance
exceeds `delta`. -/
def stepRel (n : ℕ) (x y : ℕ → ℝ) (delta : ℝ) (a c : ℕ) : Prop :=
  a < c ∧ c < n ∧ delta < dist x y a c ∧
    ∀ m, a < m → m < c → ¬ delta < dist x y a m

/-! A concrete collinear trajectory (counterexample data for the
delta-monotonicity claim): six points on the x-axis. -/

noncomputable def cexXs : List ℝ := [0, 0.8, 1.31, 0.25, 1.35, 0.3]

noncomputable def cexX (k : ℕ) : ℝ := cexXs.getD k 0

def cexY (_ : ℕ) : ℝ := 0

/-! Helper lemmas about the scan loop -/

theorem scanJ_le (n : ℕ) (x y : ℕ → ℝ) (delta : ℝ) (i j : ℕ) (h : j ≤ n) :
    scanJ n x y delta i j ≤ n := by
  by_cases hj : j < n
  · by_cases hd : delta < dist x y i j
    · rw [scanJ, if_pos hj, if_pos hd]
      omega
    · rw [scanJ, if_pos hj, if_neg hd]
      exact scanJ_le n x y delta i (j + 1) (by omega)
  · rw [scanJ, if_neg hj]
    exact h
termination_by n - j

theorem scanJ_skip (n : ℕ) (x y : ℕ → ℝ) (delta : ℝ) (i j m : ℕ)
    (hjm : j ≤ m) (hm : m < scanJ n x y delta i j) :
    ¬ delta < dist x y i m := by
  by_cases hj : j < n
  · by_cases hd : delta < dist x y i j
    · rw [scanJ, if_pos hj, if_pos hd] at hm
      exact absurd hm (by omega)
    · rw [scanJ, if_pos hj, if_neg hd] at hm
      rcases Nat.eq_or_lt_of_le hjm with h | h
      · exact h ▸ hd
      · exact scanJ_skip n x y delta i (j + 1) m h hm
  · rw [scanJ, if_neg hj] at hm
    exact absurd hm (by omega)
termination_by n - j

theorem scanJ_hit (n : ℕ) (x y : ℕ → ℝ) (delta : ℝ) (i j : ℕ)
    (h : scanJ n x y delta i j < n) :
    delta < dist x y i (scanJ n x y delta i j) := by
  by_cases hj : j < n
  · by_cases hd : delta < dist x y i j
    · rw [scanJ, if_pos hj, if_pos hd]
      exact hd
    · rw [scanJ, if_pos hj, if_neg hd] at h ⊢
      exact scanJ_hit n x y delta i (j + 1) h
  · rw [scanJ, if_neg hj] at h
    exact absurd h hj
termination_by n - j

/-! Helper lemmas about the outer loop and the core index list -/

theorem loopI_chain (n : ℕ) (x y : ℕ → ℝ) (delta : ℝ) (i : ℕ) :
    List.Chain (stepRel n x y delta) i (loopI n x y delta i) := by
  by_cases hi : i < n - 1
  · rw [loopI, if_pos hi]
    dsimp only
    by_cases hn : n ≤ scanJ n x y delta i (i + 1)
    · rw [if_pos hn]
      exact List.Chain.nil
    · rw [if_neg hn]
      have hge : i + 1 ≤ scanJ n x y delta i (i + 1) := scanJ_ge n x y delta i (i + 1)
      refine List.Chain.cons ⟨by omega, by omega, scanJ_hit n x y delta i (i + 1) (by omega), ?_⟩
        (loopI_chain n x y delta _)
      intro m h1 h2
      exact scanJ_skip n x y delta i (i + 1) m (by omega) h2
  · rw [loopI, if_neg hi]
    exact List.Chain.nil
termination_by n - i
decreasing_by
  have hge : i + 1 ≤ scanJ n x y delta i (i + 1) := scanJ_ge n x y delta i (i + 1)
  omega

theorem loopI_mem_lt (n : ℕ) (x y : ℕ → ℝ) (delta : ℝ) (i : ℕ) :
    ∀ a ∈ loopI n x y delta i, a < n := by
  by_cases hi : i < n - 1
  · rw [loopI, if_pos hi]
    dsimp only
    by_cases hn : n ≤ scanJ n x y delta i (i + 1)
    · rw [if_pos hn]
      intro a ha
      exact absurd ha (List.not_mem_nil a)
    · rw [if_neg hn]
      intro a ha
      rcases List.mem_cons.mp ha with h | h
      · omega
      · exact loopI_mem_lt n x y delta _ a h
  · rw [loopI, if_neg hi]
    intro a ha
    exact absurd ha (List.not_mem_nil a)
termination_by n - i
decreasing_by
  have hge : i + 1 ≤ scanJ n x y delta i (i + 1) := scanJ_ge n x y delta i (i + 1)
  omega

theorem compress_core_chain' (n : ℕ) (x y : ℕ → ℝ) (delta : ℝ) :
    List.Chain' (stepRel n x y delta) (compress_core n x y delta) :=
  loopI_chain n x y delta 0

theorem compress_core_chain'_lt (n : ℕ) (x y : ℕ → ℝ) (delta : ℝ) :
    List.Chain' (· < ·) (compress_core n x y delta) :=
  List.Chain'.imp (fun _ _ h => h.1) (compress_core_chain' n x y delta)

theorem compress_core_mem_lt (n : ℕ) (x y : ℕ → ℝ) (delta : ℝ) (hn : 1 ≤ n) :
    ∀ a ∈ compress_core n x y delta, a < n := by
  intro a ha
  rcases List.mem_cons.mp ha with h | h
  · omega
  · exact loopI_mem_lt n x y delta 0 a h

theorem getLast?_eq_getLastD {l : List ℕ} (h : l ≠ []) :
    l.getLast? = some (l.getLastD 0) := by
  rw [List.getLastD_eq_getLast?]
  obtain ⟨z, hz⟩ := Option.isSome_iff_exists.mp (List.getLast?_isSome.mpr h)
  rw [hz]
  rfl

theorem le_getLastD_of_chain' {l : List ℕ} (h : List.Chain' (· < ·) l) :
    ∀ a ∈ l, a ≤ l.getLastD 0 := by
  induction l with
  | nil => intro a ha; exact absurd ha (List.not_mem_nil a)
  | cons z t ih =>
    intro a ha
    cases t with
    | nil =>
      rcases List.mem_cons.mp ha with hz | hz
      · simp [hz]
      · exact absurd hz (List.not_mem_nil a)
    | cons z2 t2 =>
      have h1 : z < z2 := (List.chain'_cons.mp h).1
      have h2 : List.Chain' (· < ·) (z2 :: t2) := (List.chain'_cons.mp h).2
      have hLD : (z :: z2 :: t2).getLastD 0 = (z2 :: t2).getLastD 0 := by
        simp [List.getLastD_eq_getLast?]
      rcases List.mem_cons.mp ha with hz | hz
      · have := ih h2 z2 (List.mem_cons_self z2 t2)
        rw [hLD, hz]
        omega
      · rw [hLD]
        exact ih h2 a hz

theorem compress_cases (n : ℕ) (x y : ℕ → ℝ) (delta : ℝ) :
    (compress_trajectory n x y delta
        = compress_core n x y delta ++ [n - 1]
      ∧ (compress_core n x y delta).getLastD 0 ≠ n - 1)
    ∨ (compress_trajectory n x y delta = compress_core n x y delta
      ∧ (compress_core n x y delta).getLastD 0 = n - 1) := by
  unfold compress_trajectory
  dsimp only
  by_cases h : (compress_core n x y delta).getLastD 0 ≠ n - 1
  · left
    exact ⟨by rw [if_pos h], h⟩
  · right
    refine ⟨by rw [if_neg h], ?_⟩
    omega

theorem compress_getLast? (n : ℕ) (x y : ℕ → ℝ) (delta : ℝ) :
    (compress_trajectory n x y delta).getLast? = some (n - 1) := by
  rcases compress_cases n x y delta with ⟨h, _⟩ | ⟨h, hl⟩
  · rw [h]
    exact List.getLast?_concat _
  · rw [h, getLast?_eq_getLastD (by simp [compress_core]), hl]

theorem compress_head? (n : ℕ) (x y : ℕ → ℝ) (delta : ℝ) :
    (compress_trajectory n x y delta).head? = some 0 := by
  rcases compress_cases n x y delta with ⟨h, _⟩ | ⟨h, _⟩ <;>
    rw [h] <;> simp [compress_core]

theorem compress_ne_nil (n : ℕ) (x y : ℕ → ℝ) (delta : ℝ) :
    compress_trajectory n x y delta ≠ [] := by
  intro h
  have := compress_head? n x y delta
  rw [h] at this
  exact Option.noConfusion this

theorem compress_mem_lt (n : ℕ) (x y : ℕ → ℝ) (delta : ℝ) (hn : 1 ≤ n) :
    ∀ a ∈ compress_trajectory n x y delta, a < n := by
  intro a ha
  rcases compress_cases n x y delta with ⟨h, _⟩ | ⟨h, _⟩
  · rw [h] at ha
    rcases List.mem_append.mp ha with h' | h'
    · exact compress_core_mem_lt n x y delta hn a h'
    · have : a = n - 1 := List.mem_singleton.mp h'
      omega
  · rw [h] at ha
    exact compress_core_mem_lt n x y delta hn a ha

theorem compress_pairwise (n : ℕ) (x y : ℕ → ℝ) (delta : ℝ) (hn : 1 ≤ n) :
    List.Pairwise (· < ·) (compress_trajectory n x y delta) := by
  have hcore : List.Pairwise (· < ·) (compress_core n x y delta) :=
    List.chain'_iff_pairwise.mp (compress_core_chain'_lt n x y delta)
  rcases compress_cases n x y delta with ⟨h, hne⟩ | ⟨h, _⟩
  · rw [h]
    refine List.pairwise_append.mpr ⟨hcore, List.pairwise_singleton _ _, ?_⟩
    intro a ha c hc
    have hc' : c = n - 1 := List.mem_singleton.mp hc
    have h1 : a ≤ (compress_core n x y delta).getLastD 0 :=
      le_getLastD_of_chain' (compress_core_chain'_lt n x y delta) a ha
    have h2 : (compress_core n x y delta).getLastD 0 < n := by
      refine compress_core_mem_lt n x y delta hn _ ?_
      have hnil : compress_core n x y delta ≠ [] := by simp [compress_core]
      have := List.getLast_mem hnil
      rwa [List.getLastD_eq_getLast? , List.getLast?_eq_getLast _ hnil]
    omega
  · rw [h]
    exact hcore

/-! Concrete evaluation of the compressor on the collinear trajectory -/

theorem cex_dist (i j : ℕ) : dist cexX cexY i j = |cexX j - cexX i| := by
  unfold dist cexY
  rw [sub_zero]
  norm_num [Real.sqrt_sq_eq_abs]

theorem cex_eval_small :
    compress_trajectory 6 cexX cexY 0.6 = [0, 1, 5] := by
  have c01 : dist cexX cexY 0 1 = 0.8 := by
    rw [cex_dist]; norm_num [cexX, cexXs]
  have c12 : dist cexX cexY 1 2 = 0.51 := by
    rw [cex_dist]; norm_num [cexX, cexXs]
  have c13 : dist cexX cexY 1 3 = 0.55 := by
    rw [cex_dist]; norm_num [cexX, cexXs, abs_of_nonpos]
  have c14 : dist cexX cexY 1 4 = 0.55 := by
    rw [cex_dist]; norm_num [cexX, cexXs]
  have c15 : dist cexX cexY 1 5 = 0.5 := by
    rw [cex_dist]; norm_num [cexX, cexXs, abs_of_nonpos]
  have s0 : scanJ 6 cexX cexY 0.6 0 1 = 1 := by
    rw [scanJ, if_pos (by norm_num), if_pos (by rw [c01]; norm_num)]
  have s1 : scanJ 6 cexX cexY 0.6 1 2 = 6 := by
    rw [scanJ, if_pos (by norm_num), if_neg (by rw [c12]; norm_num)]
    rw [scanJ, if_pos (by norm_num), if_neg (by rw [c13]; norm_num)]
    rw [scanJ, if_pos (by norm_num), if_neg (by rw [c14]; norm_num)]
    rw [scanJ, if_pos (by norm_num), if_neg (by rw [c15]; norm_num)]
    rw [scanJ, if_neg (by norm_num)]
  have l1 : loopI 6 cexX cexY 0.6 1 = [] := by
    rw [loopI, if_pos (by norm_num)]
    rw [s1]
    dsimp only
    norm_num
  have l0 : loopI 6 cexX cexY 0.6 0 = [1] := by
    rw [loopI, if_pos (by norm_num)]
    rw [s0]
    dsimp only
    rw [if_neg (by norm_num), l1]
  unfold compress_trajectory compress_core
  rw [l0]
  norm_num

theorem cex_eval_large :
    compress_trajectory 6 cexX cexY 1.0 = [0, 2, 3, 4, 5] := by
  have c01 : dist cexX cexY 0 1 = 0.8 := by
    rw [cex_dist]; norm_num [cexX, cexXs]
  have c02 : dist cexX cexY 0 2 = 1.31 := by
    rw [cex_dist]; norm_num [cexX, cexXs]
  have c23 : dist cexX cexY 2 3 = 1.06 := by
    rw [cex_dist]; norm_num [cexX, cexXs, abs_of_nonpos]
  have c34 : dist cexX cexY 3 4 = 1.1 := by
    rw [cex_dist]; norm_num [cexX, cexXs]
  have c45 : dist cexX cexY 4 5 = 1.05 := by
    rw [cex_dist]; norm_num [cexX, cexXs, abs_of_nonpos]
  have s0 : scanJ 6 cexX cexY 1.0 0 1 = 2 := by
    rw [scanJ, if_pos (by norm_num), if_neg (by rw [c01]; norm_num)]
    rw [scanJ, if_pos (by norm_num), if_pos (by rw [c02]; norm_num)]
  have s2 : scanJ 6 cexX cexY 1.0 2 3 = 3 := by
    rw [scanJ, if_pos (by norm_num), if_pos (by rw [c23]; norm_num)]
  have s3 : scanJ 6 cexX cexY 1.0 3 4 = 4 := by
    rw [scanJ, if_pos (by norm_num), if_pos (by rw [c34]; norm_num)]
  have s4 : scanJ 6 cexX cexY 1.0 4 5 = 5 := by
    rw [scanJ, if_pos (by norm_num), if_pos (by rw [c45]; norm_num)]
  have l5 : loopI 6 cexX cexY 1.0 5 = [] := by
    rw [loopI, if_neg (by norm_num)]
  have l4 : loopI 6 cexX cexY 1.0 4 = [5] := by
    rw [loopI, if_pos (by norm_num)]
    rw [s4]
    dsimp only
    rw [if_neg (by norm_num), l5]
  have l3 : loopI 6 cexX cexY 1.0 3 = [4, 5] := by
    rw [loopI, if_pos (by norm_num)]
    rw [s3]
    dsimp only
    rw [if_neg (by norm_num), l4]
  have l2 : loopI 6 cexX cexY 1.0 2 = [3, 4, 5] := by
    rw [loopI, if_pos (by norm_num)]
    rw [s2]
    dsimp only
    rw [if_neg (by norm_num), l3]
  have l0 : loopI 6 cexX cexY 1.0 0 = [2, 3, 4, 5] := by
    rw [loopI, if_pos (by norm_num)]
    rw [s0]
    dsimp only
    rw [if_neg (by norm_num), l2]
  unfold compress_trajectory compress_core
  rw [l0]
  norm_num

/-! Claim theorems -/

/-- Claim C1: for every trajectory of length `N ≥ 1` and every positive
`delta`, the index list returned by `compress_trajectory` is non-empty,
strictly increasing, begins with index `0`, and its last element is
`N - 1`. -/
theorem compress_c1 (n : ℕ) (x y : ℕ → ℝ) (delta : ℝ)
    (hn : 1 ≤ n) (hdelta : 0 < delta) :
    compress_trajectory n x y delta ≠ [] ∧
    List.Pairwise (· < ·) (compress_trajectory n x y delta) ∧
    (compress_trajectory n x y delta).head? = some 0 ∧
    (compress_trajectory n x y delta).getLast? = some (n - 1) :=
  ⟨compress_ne_nil n x y delta, compress_pairwise n x y delta hn,
    compress_head? n x y delta, compress_getLast? n x y delta⟩

theorem compress_c1_witness :
    compress_trajectory 1 (fun _ => (0 : ℝ)) (fun _ => (0 : ℝ)) 1 ≠ [] ∧
    List.Pairwise (· < ·)
      (compress_trajectory 1 (fun _ => (0 : ℝ)) (fun _ => (0 : ℝ)) 1) ∧
    (compress_trajectory 1 (fun _ => (0 : ℝ)) (fun _ => (0 : ℝ)) 1).head?
      = some 0 ∧
    (compress_trajectory 1 (fun _ => (0 : ℝ)) (fun _ => (0 : ℝ)) 1).getLast?
      = some (1 - 1) :=
  compress_c1 1 (fun _ => 0) (fun _ => 0) 1 (le_refl 1) one_pos

/-- Claim C9: every index returned by `compress_trajectory` lies in
`[0, len(t) - 1]` whenever `len(t) ≥ 1`, so the re-indexing
`x[indices], y[indices], t[indices]` is in bounds. -/
theorem compress_c9 (n : ℕ) (x y : ℕ → ℝ) (delta : ℝ) (hn : 1 ≤ n) :
    (compress_trajectory n x y delta).all (fun a => decide (a < n)) = true := by
  rw [List.all_eq_true]
  intro a ha
  simpa using compress_mem_lt n x y delta hn a ha

theorem compress_c9_witness :
    (compress_trajectory 1 (fun _ => (0 : ℝ)) (fun _ => (0 : ℝ)) 1).all
      (fun a => decide (a < 1)) = true :=
  compress_c9 1 (fun _ => 0) (fun _ => 0) 1 (le_refl 1)

/-- Claim C2: for every trajectory and positive `delta`, every pair of
consecutive retained indices `(a, c)` — except possibly the final pair when
`N - 1` was appended unconditionally (i.e. when the returned list differs
from the core scan output) — satisfies: the Euclidean distance between
points `a` and `c` exceeds `delta`, and every intermediate point `m` with
`a < m < c` is within `delta` of point `a`. -/
theorem compress_c2 (n : ℕ) (x y : ℕ → ℝ) (delta : ℝ) (hdelta : 0 < delta)
    (pre post : List ℕ) (a c : ℕ)
    (hdecomp : compress_trajectory n x y delta = pre ++ a :: c :: post)
    (hfin : post ≠ [] ∨
      compress_trajectory n x y delta = compress_core n x y delta) :
    delta < dist x y a c ∧ ∀ m, a < m → m < c → ¬ delta < dist x y a m := by
  have hchain := compress_core_chain' n x y delta
  have hpair : stepRel n x y delta a c → delta < dist x y a c ∧
      ∀ m, a < m → m < c → ¬ delta < dist x y a m :=
    fun h => ⟨h.2.2.1, h.2.2.2⟩
  rcases compress_cases n x y delta with ⟨h, _⟩ | ⟨h, _⟩
  · rcases hfin with hpost | hcontr
    · obtain ⟨q, z, hqz⟩ : ∃ q z, post = q ++ [z] :=
        ⟨post.dropLast, post.getLast hpost,
          (List.dropLast_append_getLast hpost).symm⟩
      have heq : compress_core n x y delta ++ [n - 1]
          = (pre ++ a :: c :: q) ++ [z] := by
        rw [← h, hdecomp, hqz]
        simp
      have hcore : compress_core n x y delta = pre ++ a :: c :: q :=
        (List.append_inj' heq (by simp)).1
      have hinf : [a, c] <:+: compress_core n x y delta :=
        ⟨pre, q, by rw [hcore]; simp⟩
      exact hpair (List.chain'_pair.mp ( List.Chain'.infix hchain hinf))
    · rw [hcontr] at h
      have := congrArg List.length h
      simp at this
  · rw [h] at hdecomp
    have hinf : [a, c] <:+: compress_core n x y delta :=
      ⟨pre, post, by rw [hdecomp]; simp⟩
    exact hpair (List.chain'_pair.mp ( List.Chain'.infix hchain hinf))

theorem compress_c2_witness :
    (1.0 : ℝ) < dist cexX cexY 0 2 ∧
    ∀ m, 0 < m → m < 2 → ¬ (1.0 : ℝ) < dist cexX cexY 0 m :=
  compress_c2 6 cexX cexY 1.0 (by norm_num) [] [3, 4, 5] 0 2
    (by rw [cex_eval_large]; rfl) (Or.inl (by simp))

/-- Claim C5 counterexample: for the collinear
six-point trajectory `cexX`/`cexY`, the smaller threshold `0.6 < 1.0`
retains *fewer* points (3) than the larger threshold (5), refuting
"retained count under `delta_a` ≥ retained count under `delta_b`". -/
theorem compress_c5_counterexample :
    (0.6 : ℝ) < 1.0 ∧
    (compress_trajectory 6 cexX cexY 0.6).length <
      (compress_trajectory 6 cexX cexY 1.0).length := by
  refine ⟨by norm_num, ?_⟩
  rw [cex_eval_small, cex_eval_large]
  simp

/-- Claim C5 amended: what is monotone in `delta` is each individual greedy
scan step, not the total retained count: for `delta_a < delta_b`, the scan
from the same retained index `i` stops at an index under `delta_a` that is
no larger than the stop index under `delta_b`. -/
theorem scanJ_monotone_delta (n : ℕ) (x y : ℕ → ℝ) (da db : ℝ) (i j : ℕ)
    (h : da < db) :
    scanJ n x y da i j ≤ scanJ n x y db i j := by
  by_cases hj : j < n
  · by_cases hda : da < dist x y i j
    · rw [scanJ, if_pos hj, if_pos hda]
      exact scanJ_ge n x y db i j
    · have hdb : ¬ db < dist x y i j := fun hc => hda (lt_trans h hc)
      have e1 : scanJ n x y da i j = scanJ n x y da i (j + 1) := by
        rw [scanJ, if_pos hj, if_neg hda]
      have e2 : scanJ n x y db i j = scanJ n x y db i (j + 1) := by
        rw [scanJ, if_pos hj, if_neg hdb]
      rw [e1, e2]
      exact scanJ_monotone_delta n x y da db i (j + 1) h
  · have e1 : scanJ n x y da i j = j := by rw [scanJ, if_neg hj]
    have e2 : scanJ n x y db i j = j := by rw [scanJ, if_neg hj]
    rw [e1, e2]
termination_by n - j

theorem scanJ_monotone_delta_witness :
    scanJ 0 (fun _ => (0 : ℝ)) (fun _ => (0 : ℝ)) 0 0 0
      ≤ scanJ 0 (fun _ => (0 : ℝ)) (fun _ => (0 : ℝ)) 1 0 0 :=
  scanJ_monotone_delta 0 (fun _ => 0) (fun _ => 0) 0 1 0 0 zero_lt_one

/-! Idempotence machinery: compressing a spread-out trajectory keeps
every point -/

theorem loopI_all_strict (n : ℕ) (x y : ℕ → ℝ) (delta : ℝ)
    (hall : ∀ i, i + 1 < n → delta < dist x y i (i + 1)) :
    ∀ i, loopI n x y delta i = List.range' (i + 1) (n - 1 - i) := by
  intro i
  by_cases hi : i < n - 1
  · have hstop : scanJ n x y delta i (i + 1) = i + 1 := by
      rw [scanJ, if_pos (by omega), if_pos (hall i (by omega))]
    rw [loopI, if_pos hi, hstop]
    dsimp only
    rw [if_neg (by omega), loopI_all_strict n x y delta hall (i + 1)]
    have h1 : n - 1 - i = (n - 1 - (i + 1)) + 1 := by omega
    rw [h1, List.range'_succ]
  · rw [loopI, if_neg hi]
    have h0 : n - 1 - i = 0 := by omega
    rw [h0]
    rfl
termination_by i => n - i
decreasing_by omega

theorem loopI_lastweak (n : ℕ) (x y : ℕ → ℝ) (delta : ℝ) (hn2 : 2 ≤ n)
    (hmid : ∀ i, i + 2 < n → delta < dist x y i (i + 1))
    (hlast : ¬ delta < dist x y (n - 2) (n - 1)) :
    ∀ i, i ≤ n - 2 → loopI n x y delta i = List.range' (i + 1) (n - 2 - i) := by
  intro i hi
  by_cases hi2 : i = n - 2
  · have e1 : i + 1 = n - 1 := by omega
    have hstop : scanJ n x y delta i (i + 1) = n := by
      rw [scanJ, if_pos (by omega), e1, if_neg ?hl]
      case hl =>
        have e2 : i = n - 2 := hi2
        rw [e2]
        exact hlast
      rw [scanJ, if_neg (by omega)]
      omega
    rw [loopI, if_pos (by omega), hstop]
    dsimp only
    rw [if_pos (le_refl n)]
    have h0 : n - 2 - i = 0 := by omega
    rw [h0]
    rfl
  · have hstop : scanJ n x y delta i (i + 1) = i + 1 := by
      rw [scanJ, if_pos (by omega), if_pos (hmid i (by omega))]
    rw [loopI, if_pos (by omega), hstop]
    dsimp only
    rw [if_neg (by omega),
      loopI_lastweak n x y delta hn2 hmid hlast (i + 1) (by omega)]
    have h1 : n - 2 - i = (n - 2 - (i + 1)) + 1 := by omega
    rw [h1, List.range'_succ]
termination_by i => n - i
decreasing_by omega

theorem getLastD_range (m : ℕ) (hm : 1 ≤ m) :
    (List.range m).getLastD 0 = m - 1 := by
  have h1 : m = (m - 1) + 1 := by omega
  rw [h1, List.range_succ, List.getLastD_eq_getLast?, List.getLast?_concat]
  rfl

theorem compress_of_spread (n : ℕ) (x y : ℕ → ℝ) (delta : ℝ) (hn : 1 ≤ n)
    (hpairs : ∀ i, i + 2 < n → delta < dist x y i (i + 1)) :
    compress_trajectory n x y delta = List.range n := by
  by_cases hn1 : n = 1
  · subst hn1
    unfold compress_trajectory compress_core
    rw [loopI, if_neg (by norm_num)]
    simp [List.range]
    rfl
  · have hn2 : 2 ≤ n := by omega
    by_cases hd : delta < dist x y (n - 2) (n - 1)
    · have hall : ∀ i, i + 1 < n → delta < dist x y i (i + 1) := by
        intro i hi
        by_cases h2 : i + 2 < n
        · exact hpairs i h2
        · have e1 : i = n - 2 := by omega
          have e3 : n - 2 + 1 = n - 1 := by omega
          rw [e1, e3]
          exact hd
      have hcore : compress_core n x y delta = List.range n := by
        unfold compress_core
        rw [loopI_all_strict n x y delta hall 0]
        have h2 : n = (n - 1) + 1 := by omega
        rw [List.range_eq_range']
        conv_rhs => rw [h2, List.range'_succ]
        norm_num
      unfold compress_trajectory
      rw [hcore]
      dsimp only
      rw [if_neg (by rw [getLastD_range n hn]; omega)]
    · have hcore : compress_core n x y delta = List.range (n - 1) := by
        unfold compress_core
        rw [loopI_lastweak n x y delta hn2 hpairs hd 0 (by omega)]
        have h2 : n - 1 = (n - 2) + 1 := by omega
        rw [List.range_eq_range']
        conv_rhs => rw [h2, List.range'_succ]
        norm_num
      unfold compress_trajectory
      rw [hcore]
      dsimp only
      rw [if_pos (by rw [getLastD_range (n - 1) (by omega)]; omega)]
      have h3 : n = (n - 1) + 1 := by omega
      rw [h3, List.range_succ]
      have h4 : n - 1 + 1 - 1 = n - 1 := by omega
      rw [h4]

theorem compress_pair_strict (n : ℕ) (x y : ℕ → ℝ) (delta : ℝ) (k : ℕ)
    (hk : k + 2 < (compress_trajectory n x y delta).length) :
    delta < dist x y ((compress_trajectory n x y delta).getD k 0)
      ((compress_trajectory n x y delta).getD (k + 1) 0) := by
  have hchain := compress_core_chain' n x y delta
  have hget := List.chain'_iff_get.mp hchain
  rcases compress_cases n x y delta with ⟨h, _⟩ | ⟨h, _⟩
  · rw [h] at hk ⊢
    have hlen : k + 1 < (compress_core n x y delta).length := by
      have := hk
      simp only [List.length_append, List.length_singleton] at this
      omega
    rw [List.getD_append _ _ 0 k (by omega),
        List.getD_append _ _ 0 (k + 1) hlen]
    have hs := hget k (by omega)
    rw [List.getD_eq_getElem _ _ (by omega), List.getD_eq_getElem _ _ hlen]
    simpa [List.get_eq_getElem] using hs.2.2.1
  · rw [h] at hk ⊢
    have hs := hget k (by omega)
    rw [List.getD_eq_getElem _ _ (by omega),
        List.getD_eq_getElem _ _ (by omega)]
    simpa [List.get_eq_getElem] using hs.2.2.1

/-- Claim C6: compression is idempotent — re-running `compress_trajectory`
with the same `delta` on the arrays re-indexed by a first compression
returns the full index list `[0, …, M-1]` of the compressed trajectory
(no further reduction). -/
theorem compress_c6 (n : ℕ) (x y : ℕ → ℝ) (delta : ℝ)
    (hn : 1 ≤ n) (hdelta : 0 < delta) :
    compress_trajectory (compress_trajectory n x y delta).length
        (fun k => x ((compress_trajectory n x y delta).getD k 0))
        (fun k => y ((compress_trajectory n x y delta).getD k 0)) delta
      = List.range (compress_trajectory n x y delta).length := by
  apply compress_of_spread
  · exact List.length_pos.mpr (compress_ne_nil n x y delta)
  · intro i hi
    exact compress_pair_strict n x y delta i hi

theorem compress_c6_witness :
    compress_trajectory
        (compress_trajectory 1 (fun _ => (0 : ℝ)) (fun _ => (0 : ℝ)) 1).length
        (fun k => (fun _ => (0 : ℝ))
          ((compress_trajectory 1 (fun _ => (0 : ℝ)) (fun _ => (0 : ℝ)) 1).getD k 0))
        (fun k => (fun _ => (0 : ℝ))
          ((compress_trajectory 1 (fun _ => (0 : ℝ)) (fun _ => (0 : ℝ)) 1).getD k 0)) 1
      = List.range
          (compress_trajectory 1 (fun _ => (0 : ℝ)) (fun _ => (0 : ℝ)) 1).length :=
  compress_c6 1 (fun _ => 0) (fun _ => 0) 1 (le_refl 1) one_pos

/-! Termination: the fuel-instrumented loops agree with the total
functions once the fuel reaches `n + 1` -/

theorem scanJF_eq (n : ℕ) (x y : ℕ → ℝ) (delta : ℝ) :
    ∀ fuel i j, n - j < fuel →
      scanJF n x y delta fuel i j = some (scanJ n x y delta i j) := by
  intro fuel
  induction fuel with
  | zero => intro i j h; omega
  | succ f ih =>
    intro i j _h
    by_cases hj : j < n
    · by_cases hd : delta < dist x y i j
      · rw [scanJF, if_pos hj, if_pos hd, scanJ, if_pos hj, if_pos hd]
      · rw [scanJF, if_pos hj, if_neg hd, scanJ, if_pos hj, if_neg hd]
        exact ih i (j + 1) (by omega)
    · rw [scanJF, if_neg hj, scanJ, if_neg hj]

theorem loopF_eq (n : ℕ) (x y : ℕ → ℝ) (delta : ℝ) :
    ∀ fuel i, n - i < fuel →
      loopF n x y delta fuel i = some (loopI n x y delta i) := by
  intro fuel
  induction fuel with
  | zero => intro i h; omega
  | succ f ih =>
    intro i _h
    by_cases hi : i < n - 1
    · rw [loopF, if_pos hi,
        scanJF_eq n x y delta (n + 1) i (i + 1) (by omega)]
      dsimp only
      by_cases hn' : n ≤ scanJ n x y delta i (i + 1)
      · rw [if_pos hn', loopI, if_pos hi]
        dsimp only
        rw [if_pos hn']
      · have hge := scanJ_ge n x y delta i (i + 1)
        rw [if_neg hn', ih (scanJ n x y delta i (i + 1)) (by omega)]
        conv_rhs => rw [loopI, if_pos hi]
        dsimp only
        rw [if_neg hn']
        rfl
    · rw [loopF, if_neg hi, loopI, if_neg hi]

/-- Claim C10: `compress_trajectory` terminates on every finite input: both
nested while loops complete within a fuel bound of `n + 1` iterations for
every trajectory length `n`, arbitrary real coordinates, and every `delta`
(positive or not), and the fuel-instrumented run returns exactly the index
list of the total functions. -/
theorem compress_c10 (n : ℕ) (x y : ℕ → ℝ) (delta : ℝ) (fuel : ℕ)
    (hfuel : n < fuel) :
    compressF n x y delta fuel = some (compress_trajectory n x y delta) := by
  unfold compressF compress_trajectory compress_core
  rw [loopF_eq n x y delta fuel 0 (by omega)]
  rfl

theorem compress_c10_witness :
    compressF 1 (fun _ => (0 : ℝ)) (fun _ => (0 : ℝ)) (-1) 2
      = some (compress_trajectory 1 (fun _ => (0 : ℝ)) (fun _ => (0 : ℝ)) (-1)) :=
  compress_c10 1 (fun _ => 0) (fun _ => 0) (-1) 2 (by norm_num)

/-! Record-merge lemmas -/

theorem dictGet?_set_self {β : Type} (m : List (String × β)) (meth : String)
    (v : β) : dictGet? (dictSet m meth v) meth = some v := by
  induction m with
  | nil => simp [dictSet, dictGet?]
  | cons kw rest ih =>
    by_cases hk : kw.1 = meth
    · simp [dictSet, hk, dictGet?]
    · simp only [dictSet]
      rw [if_neg ?he]
      case he => exact hk
      simp only [dictGet?]
      rw [if_neg hk]
      exact ih

theorem mergeRecords_map_key {α β τ : Type} [DecidableEq α]
    (records : List (SolutionRecord α β τ)) (key : α) (meth : String)
    (xy : β) (tf : τ) :
    (mergeRecords records key meth xy tf).map SolutionRecord.key
      = if key ∈ records.map SolutionRecord.key
          then records.map SolutionRecord.key
          else records.map SolutionRecord.key ++ [key] := by
  induction records with
  | nil => simp [mergeRecords]
  | cons r rs ih =>
    by_cases hr : r.key = key
    · simp only [mergeRecords, if_pos hr, List.map_cons]
      have hkey : SolutionRecord.key
          { r with solutions := dictSet r.solutions meth xy } = r.key := rfl
      rw [hkey, hr, if_pos (List.mem_cons_self key _)]
    · simp only [mergeRecords, if_neg hr, List.map_cons, ih]
      by_cases hk : key ∈ rs.map SolutionRecord.key
      · rw [if_pos hk, if_pos (List.mem_cons_of_mem _ hk)]
      · have hnm : key ∉ r.key :: rs.map SolutionRecord.key := by
          intro hmem
          rcases List.mem_cons.mp hmem with h1 | h1
          · exact hr h1.symm
          · exact hk h1
        rw [if_neg hk, if_neg hnm]
        rfl

theorem mergeRecords_nodup {α β τ : Type} [DecidableEq α]
    (records : List (SolutionRecord α β τ)) (key : α) (meth : String)
    (xy : β) (tf : τ) (h : (records.map SolutionRecord.key).Nodup) :
    ((mergeRecords records key meth xy tf).map SolutionRecord.key).Nodup := by
  rw [mergeRecords_map_key]
  by_cases hk : key ∈ records.map SolutionRecord.key
  · rw [if_pos hk]
    exact h
  · rw [if_neg hk]
    simp [List.nodup_append, h, hk]

theorem mergeRecords_key_t_of_mem {α β τ : Type} [DecidableEq α]
    (records : List (SolutionRecord α β τ)) (key : α) (meth : String)
    (xy : β) (tf : τ) (h : key ∈ records.map SolutionRecord.key) :
    (mergeRecords records key meth xy tf).map (fun r => (r.key, r.t))
      = records.map (fun r => (r.key, r.t)) := by
  induction records with
  | nil => simp at h
  | cons r rs ih =>
    by_cases hr : r.key = key
    · simp only [mergeRecords, if_pos hr, List.map_cons]
    · have hk : key ∈ rs.map SolutionRecord.key := by
        rcases List.mem_cons.mp h with h1 | h1
        · exact absurd h1.symm hr
        · exact h1
      simp only [mergeRecords, if_neg hr, List.map_cons, ih hk]

theorem mergeRecords_fresh {α β τ : Type} [DecidableEq α]
    (records : List (SolutionRecord α β τ)) (key : α) (meth : String)
    (xy : β) (tf : τ) (h : key ∉ records.map SolutionRecord.key) :
    mergeRecords records key meth xy tf
      = records ++ [⟨key, tf, [(meth, xy)]⟩] := by
  induction records with
  | nil => simp [mergeRecords]
  | cons r rs ih =>
    have hr : ¬ r.key = key := by
      intro hh
      exact h (by rw [List.map_cons, hh]; exact List.mem_cons_self key _)
    have hk : key ∉ rs.map SolutionRecord.key := by
      intro hh
      exact h (List.mem_cons_of_mem _ hh)
    simp only [mergeRecords, if_neg hr, List.cons_append, ih hk]

theorem mergeRecords_found_append {α β τ : Type} [DecidableEq α]
    (records : List (SolutionRecord α β τ)) (rec : SolutionRecord α β τ)
    (key : α) (meth : String) (xy : β) (tf : τ)
    (hfresh : key ∉ records.map SolutionRecord.key) (hrec : rec.key = key) :
    mergeRecords (records ++ [rec]) key meth xy tf
      = records ++ [{ rec with solutions := dictSet rec.solutions meth xy }] := by
  induction records with
  | nil => simp [mergeRecords, if_pos hrec]
  | cons r rs ih =>
    have hr : ¬ r.key = key := by
      intro hh
      exact hfresh (by rw [List.map_cons, hh]; exact List.mem_cons_self key _)
    have hk : key ∉ rs.map SolutionRecord.key := by
      intro hh
      exact hfresh (List.mem_cons_of_mem _ hh)
    simp only [List.cons_append, mergeRecords, if_neg hr, List.append_eq, ih hk]

/-- Claim C3: merging two successful runs with the same five-tuple key and
different methods yields exactly one record for that key holding both
method entries; key-uniqueness of the collection is preserved by every
merge; and merging into an existing record never changes any record's key
(parameter fields) or stored `t` array — `t` stays the first-seen
method's compressed time array. -/
theorem merge_c3 {α β τ : Type} [DecidableEq α]
    (records : List (SolutionRecord α β τ)) (key : α)
    (m1 m2 : String) (v1 v2 : β) (t1 t2 : τ)
    (hfresh : key ∉ records.map SolutionRecord.key)
    (hnodup : (records.map SolutionRecord.key).Nodup)
    (hm : m1 ≠ m2) :
    (((mergeRecords (mergeRecords records key m1 v1 t1) key m2 v2 t2).map
        SolutionRecord.key).Nodup) ∧
    ((mergeRecords (mergeRecords records key m1 v1 t1) key m2 v2 t2).countP
        (fun r => decide (r.key = key)) = 1) ∧
    (∃ rec ∈ mergeRecords (mergeRecords records key m1 v1 t1) key m2 v2 t2,
      rec.key = key ∧ dictGet? rec.solutions m1 = some v1 ∧
        dictGet? rec.solutions m2 = some v2 ∧ rec.t = t1) ∧
    (∀ (records' : List (SolutionRecord α β τ)) (key' : α) (meth : String)
        (xy : β) (tf : τ), key' ∈ records'.map SolutionRecord.key →
      (mergeRecords records' key' meth xy tf).map (fun r => (r.key, r.t))
        = records'.map (fun r => (r.key, r.t))) := by
  have h1 : mergeRecords records key m1 v1 t1
      = records ++ [⟨key, t1, [(m1, v1)]⟩] :=
    mergeRecords_fresh records key m1 v1 t1 hfresh
  have hsols : dictSet [(m1, v1)] m2 v2 = [(m1, v1), (m2, v2)] := by
    simp [dictSet, hm]
  have h2 : mergeRecords (mergeRecords records key m1 v1 t1) key m2 v2 t2
      = records ++ [⟨key, t1, [(m1, v1), (m2, v2)]⟩] := by
    rw [h1, mergeRecords_found_append records _ key m2 v2 t2 hfresh rfl]
    simp only [hsols]
  refine ⟨?_, ?_, ?_, ?_⟩
  · exact mergeRecords_nodup _ key m2 v2 t2
      (mergeRecords_nodup records key m1 v1 t1 hnodup)
  · rw [h2, List.countP_append]
    have hz : records.countP (fun r => decide (r.key = key)) = 0 := by
      rw [List.countP_eq_zero]
      intro r hr
      simp only [decide_eq_true_eq]
      intro hcontr
      exact hfresh (by rw [← hcontr]; exact List.mem_map_of_mem _ hr)
    rw [hz]
    simp
  · refine ⟨⟨key, t1, [(m1, v1), (m2, v2)]⟩, ?_, rfl, ?_, ?_, rfl⟩
    · rw [h2]
      exact List.mem_append_right _ (List.mem_singleton.mpr rfl)
    · simp [dictGet?]
    · simp [dictGet?, hm]
  · intro records' key' meth xy tf hmem
    exact mergeRecords_key_t_of_mem records' key' meth xy tf hmem

theorem merge_c3_witness :
    ((((mergeRecords (mergeRecords ([] : List (SolutionRecord ℕ ℕ ℕ)) 0 "A" 1 10)
        0 "B" 2 20).map SolutionRecord.key).Nodup) ∧
    ((mergeRecords (mergeRecords ([] : List (SolutionRecord ℕ ℕ ℕ)) 0 "A" 1 10)
        0 "B" 2 20).countP (fun r => decide (r.key = 0)) = 1) ∧
    (∃ rec ∈ mergeRecords (mergeRecords ([] : List (SolutionRecord ℕ ℕ ℕ)) 0 "A" 1 10)
        0 "B" 2 20,
      rec.key = 0 ∧ dictGet? rec.solutions "A" = some 1 ∧
        dictGet? rec.solutions "B" = some 2 ∧ rec.t = 10) ∧
    (∀ (records' : List (SolutionRecord ℕ ℕ ℕ)) (key' : ℕ) (meth : String)
        (xy : ℕ) (tf : ℕ), key' ∈ records'.map SolutionRecord.key →
      (mergeRecords records' key' meth xy tf).map (fun r => (r.key, r.t))
        = records'.map (fun r => (r.key, r.t)))) :=
  merge_c3 [] 0 "A" "B" 1 2 10 20 (by simp) (by simp) (by decide)

/-! Uniqueness-filter lemmas -/

theorem norm2_self (a : List ℝ) : norm2 a a = 0 := by
  unfold norm2
  have hz : List.zipWith (fun u v => (u - v) ^ 2) a a
      = List.map (fun _ => (0 : ℝ)) a := by
    induction a with
    | nil => rfl
    | cons h t ih => simp [List.zipWith, ih]
  rw [hz]
  simp

theorem uniqueAgainst_false_iff (epsilon : ℝ)
    (saved : List (List ℝ × List ℝ)) (x y : List ℝ) :
    uniqueAgainst epsilon saved x y = false ↔
      ∃ sig ∈ saved, norm2 x sig.1 < epsilon ∧ norm2 y sig.2 < epsilon := by
  induction saved with
  | nil => simp [uniqueAgainst]
  | cons sig rest ih =>
    by_cases h : norm2 x sig.1 < epsilon ∧ norm2 y sig.2 < epsilon
    · rw [uniqueAgainst, if_pos h]
      exact iff_of_true rfl ⟨sig, List.mem_cons_self sig rest, h⟩
    · rw [uniqueAgainst, if_neg h, ih]
      constructor
      · rintro ⟨s, hs, hcond⟩
        exact ⟨s, List.mem_cons_of_mem _ hs, hcond⟩
      · rintro ⟨s, hs, hcond⟩
        rcases List.mem_cons.mp hs with h1 | h1
        · exact absurd (h1 ▸ hcond) h
        · exact ⟨s, h1, hcond⟩

/-- Claim C7: the uniqueness filter rejects a candidate whose `x`/`y` arrays
already occur among the accepted signatures at the default
`epsilon = 1e-5`, and in general a candidate is rejected (`unique = False`)
iff some previously accepted pair is within `epsilon` of it in both
coordinates' Euclidean norm. -/
theorem unique_c7 (saved : List (List ℝ × List ℝ)) (x y : List ℝ)
    (hmem : (x, y) ∈ saved) :
    uniqueAgainst 1e-5 saved x y = false ∧
    (∀ (epsilon : ℝ) (saved' : List (List ℝ × List ℝ)) (a c : List ℝ),
      uniqueAgainst epsilon saved' a c = false ↔
        ∃ sig ∈ saved', norm2 a sig.1 < epsilon ∧ norm2 c sig.2 < epsilon) := by
  refine ⟨?_, fun epsilon saved' a c => uniqueAgainst_false_iff epsilon saved' a c⟩
  rw [uniqueAgainst_false_iff]
  exact ⟨(x, y), hmem, by rw [norm2_self]; norm_num, by rw [norm2_self]; norm_num⟩

theorem unique_c7_witness :
    uniqueAgainst 1e-5 [(([] : List ℝ), ([] : List ℝ))] [] [] = false ∧
    (∀ (epsilon : ℝ) (saved' : List (List ℝ × List ℝ)) (a c : List ℝ),
      uniqueAgainst epsilon saved' a c = false ↔
        ∃ sig ∈ saved', norm2 a sig.1 < epsilon ∧ norm2 c sig.2 < epsilon) :=
  unique_c7 [(([] : List ℝ), ([] : List ℝ))] [] []
    (List.mem_singleton.mpr rfl)

/-! Sweep-driver lemmas -/

theorem sweep_records (delta : ℝ) (solve : GridPoint → SolveResult)
    (st : SweepState) (grid : List GridPoint) :
    (sweep delta solve st grid).records
      = st.records
        ++ (grid.filter (fun g => (solve g).isOk)).map (recordAt delta solve) := by
  induction grid generalizing st with
  | nil => simp [sweep]
  | cons g gs ih =>
    have hstep : sweep delta solve st (g :: gs)
        = sweep delta solve (sweepStep delta solve st g) gs := rfl
    rw [hstep, ih]
    cases hsg : solve g with
    | err e => simp [sweepStep, hsg, List.filter_cons, SolveResult.isOk]
    | fail => simp [sweepStep, hsg, List.filter_cons, SolveResult.isOk]
    | ok t x y n =>
      simp [sweepStep, hsg, List.filter_cons, SolveResult.isOk, recordAt]

theorem sweep_errors (delta : ℝ) (solve : GridPoint → SolveResult)
    (st : SweepState) (grid : List GridPoint) :
    (sweep delta solve st grid).errors
      = st.errors
        ++ (grid.filter (fun g => (solve g).isErr)).map (errOf solve) := by
  induction grid generalizing st with
  | nil => simp [sweep]
  | cons g gs ih =>
    have hstep : sweep delta solve st (g :: gs)
        = sweep delta solve (sweepStep delta solve st g) gs := rfl
    rw [hstep, ih]
    cases hsg : solve g with
    | err e => simp [sweepStep, hsg, List.filter_cons, SolveResult.isErr, errOf]
    | fail => simp [sweepStep, hsg, List.filter_cons, SolveResult.isErr]
    | ok t x y n => simp [sweepStep, hsg, List.filter_cons, SolveResult.isErr]

/-- Claim C8: a failed integration (exception or `success = False`) never
aborts the sweep and never modifies the accumulated record collection: the
final records are exactly the initial ones followed by the contributions of
the successful grid points (in order), running the sweep on just the
successful grid points yields the same records, and each exception is
appended to the error log. -/
theorem sweep_c8 (delta : ℝ) (solve : GridPoint → SolveResult)
    (st : SweepState) (grid : List GridPoint) :
    ((sweep delta solve st grid).records
      = st.records
        ++ (grid.filter (fun g => (solve g).isOk)).map (recordAt delta solve)) ∧
    ((sweep delta solve st grid).records
      = (sweep delta solve st (grid.filter (fun g => (solve g).isOk))).records) ∧
    ((sweep delta solve st grid).errors
      = st.errors
        ++ (grid.filter (fun g => (solve g).isErr)).map (errOf solve)) := by
  refine ⟨sweep_records delta solve st grid, ?_, sweep_errors delta solve st grid⟩
  rw [sweep_records delta solve st grid,
    sweep_records delta solve st (grid.filter (fun g => (solve g).isOk))]
  simp [List.filter_filter]

/-! RHS evaluator: clamping bounds -/

theorem le_clip (v lo hi : ℝ) : lo ≤ clip v lo hi :=
  le_max_left lo (min v hi)

theorem clip_le (v lo hi : ℝ) (h : lo ≤ hi) : clip v lo hi ≤ hi :=
  max_le h (min_le_right v hi)

theorem powAlpha_bounds (v inv_alpha : ℝ) :
    Real.exp (-700) ≤ powAlpha v inv_alpha
      ∧ powAlpha v inv_alpha ≤ Real.exp 700 :=
  ⟨Real.exp_le_exp.mpr (le_clip _ _ _),
    Real.exp_le_exp.mpr (clip_le _ _ _ (by norm_num))⟩

theorem exp_700_lt : Real.exp 700 < 1.8e308 := by
  have h1 : Real.exp 1 ^ (700 : ℕ) = Real.exp 700 := by
    rw [Real.exp_one_pow]
    norm_num
  calc Real.exp 700 = Real.exp 1 ^ (700 : ℕ) := h1.symm
    _ < 2.72 ^ (700 : ℕ) :=
        pow_lt_pow_left (lt_trans Real.exp_one_lt_d9 (by norm_num))
          (le_of_lt (Real.exp_pos 1)) (by norm_num)
    _ < 1.8e308 := by norm_num

/-- Claim C4: for states in `[1e-20, 1e20]`, `alpha` in `[1e-14, 1]`, any
time and any real decay rates, the RHS evaluator built by `get_rhs` is
well defined and cannot overflow: every clamped exponential lies in
`[exp(-700), exp(700)]`, both denominators `b_alpha + x_alpha` and
`b_alpha + y_alpha` are strictly positive, `exp 700` is below the IEEE-754
double overflow threshold `1.8e308`, and the returned derivative pair is
exactly the Hill-equation formula on the clipped state. -/
theorem rhs_c4 (alpha gamma1 gamma2 t x y : ℝ)
    (hx1 : 1e-20 ≤ x) (hx2 : x ≤ 1e20) (hy1 : 1e-20 ≤ y) (hy2 : y ≤ 1e20)
    (ha1 : 1e-14 ≤ alpha) (ha2 : alpha ≤ 1) :
    (∀ v, Real.exp (-700) ≤ powAlpha v (1.0 / alpha)
        ∧ powAlpha v (1.0 / alpha) ≤ Real.exp 700) ∧
    0 < powAlpha b (1.0 / alpha)
        + powAlpha (clip x 1e-20 1e20) (1.0 / alpha) ∧
    0 < powAlpha b (1.0 / alpha)
        + powAlpha (clip y 1e-20 1e20) (1.0 / alpha) ∧
    Real.exp 700 < 1.8e308 ∧
    get_rhs alpha gamma1 gamma2 t (x, y)
      = (K * powAlpha (clip x 1e-20 1e20) (1.0 / alpha)
            / (powAlpha b (1.0 / alpha)
              + powAlpha (clip x 1e-20 1e20) (1.0 / alpha))
          - gamma1 * clip x 1e-20 1e20,
         K * powAlpha (clip y 1e-20 1e20) (1.0 / alpha)
            / (powAlpha b (1.0 / alpha)
              + powAlpha (clip y 1e-20 1e20) (1.0 / alpha))
          - gamma2 * clip y 1e-20 1e20) := by
  refine ⟨fun v => powAlpha_bounds v (1.0 / alpha), ?_, ?_, exp_700_lt, rfl⟩
  · exact add_pos (Real.exp_pos _) (Real.exp_pos _)
  · exact add_pos (Real.exp_pos _) (Real.exp_pos _)

theorem rhs_c4_witness :
    ((∀ v, Real.exp (-700) ≤ powAlpha v (1.0 / 1)
        ∧ powAlpha v (1.0 / 1) ≤ Real.exp 700) ∧
    0 < powAlpha b (1.0 / 1) + powAlpha (clip 1 1e-20 1e20) (1.0 / 1) ∧
    0 < powAlpha b (1.0 / 1) + powAlpha (clip 1 1e-20 1e20) (1.0 / 1) ∧
    Real.exp 700 < 1.8e308 ∧
    get_rhs 1 0 0 0 (1, 1)
      = (K * powAlpha (clip 1 1e-20 1e20) (1.0 / 1)
            / (powAlpha b (1.0 / 1) + powAlpha (clip 1 1e-20 1e20) (1.0 / 1))
          - 0 * clip 1 1e-20 1e20,
         K * powAlpha (clip 1 1e-20 1e20) (1.0 / 1)
            / (powAlpha b (1.0 / 1) + powAlpha (clip 1 1e-20 1e20) (1.0 / 1))
          - 0 * clip 1 1e-20 1e20)) :=
  rhs_c4 1 0 0 0 1 1 (by norm_num) (by norm_num) (by norm_num) (by norm_num)
    (by norm_num) (by norm_num)

end Hill
